import Mathlib

/-!
Verification of the TalentFlow ordered-collection reorder engine and the
generic paginated query engine, shallowly embedded from the MirageJS server
configuration (`get /jobs` and `post /jobs/:id/reorder` handlers,
`simulateWriteOperation`) and the jobs-board drag handler (`handleDragEnd`).

Conventions of the embedding:
* JS numbers that hold integers become `Int`; timestamps are epoch
  milliseconds as `Nat`; the random draws of the channel simulator become
  rationals in `[0, 1)`.
* The IndexedDB jobs table and the in-memory `dataCache` become explicit
  values threaded through the handlers; `put`/`bulkPut` are upserts keyed
  by `id`.
* The stable `Array.prototype.sort` is modelled by the stable structural
  insertion sort `List.insertionSort` (a stable sort's output is determined
  by the comparator, so this is observationally the same list).
-/

/-- A job record, restricted to the fields that the query and reorder
engines inspect (`database.ts` `Job`); `order` is the rank column. -/
structure Job where
  id : String
  title : String
  status : String
  tags : List String
  order : Int
  createdAt : Nat
  updatedAt : Nat
deriving DecidableEq, Repr

/-- JS `a.toLowerCase().includes(b.toLowerCase())`: case-insensitive
substring containment. -/
def strIncludesCI (s sub : String) : Bool :=
  decide (List.IsInfix sub.toLower.toList s.toLower.toList)

/-- Search predicate of the `get /jobs` handler: the search string must be a
case-insensitive substring of the title or of some tag. -/
def jobMatchesSearch (search : String) (j : Job) : Bool :=
  strIncludesCI j.title search || j.tags.any (fun tag => strIncludesCI tag search)

/-- `if (search) { jobs = jobs.filter(...) }` — the empty string is falsy,
so an absent search leaves the collection untouched. -/
def searchFilter (search : String) (jobs : List Job) : List Job :=
  if search == "" then jobs else jobs.filter (jobMatchesSearch search)

/-- `if (status) { jobs = jobs.filter(job => job.status === status) }`. -/
def statusFilter (status : String) (jobs : List Job) : List Job :=
  if status == "" then jobs else jobs.filter (fun j => j.status == status)

/-- `jobs.sort((a, b) => order === 'asc' ? a.order - b.order : b.order - a.order)`:
stable sort on the rank column, direction chosen by `order`. -/
def sortByOrderField (ord : String) (jobs : List Job) : List Job :=
  if ord == "asc" then List.insertionSort (fun a b => a.order ≤ b.order) jobs
  else List.insertionSort (fun a b => b.order ≤ a.order) jobs

/-- The handler's `else` branch: stable sort on the `createdAt` timestamp,
direction chosen by `order`. -/
def sortByCreatedAt (ord : String) (jobs : List Job) : List Job :=
  if ord == "asc" then List.insertionSort (fun a b => a.createdAt ≤ b.createdAt) jobs
  else List.insertionSort (fun a b => b.createdAt ≤ a.createdAt) jobs

/-- The `get /jobs` sort step: `if (sort === 'order') ... else ...` — every
sort key other than `"order"` falls through to the createdAt comparison. -/
def sortJobs (sortKey ord : String) (jobs : List Job) : List Job :=
  if sortKey == "order" then sortByOrderField ord jobs else sortByCreatedAt ord jobs

/-- JS `Math.ceil(a / b)` on integer operands with `b ≠ 0` (the handlers
only divide by the parsed `pageSize`; at `b = 0` JS produces `Infinity`,
which has no integer representative — that case is pinned to 0 and no
theorem relies on it). -/
def jsCeilDiv (a b : Int) : Int :=
  if 0 < b then (a + b - 1) / b
  else if b < 0 then (-a + -b - 1) / -b
  else 0

/-- JS `Array.prototype.slice(start, stop)`: a negative index counts from
the end, both endpoints clamp to `[0, length]`, and the slice is empty
unless the effective start is below the effective stop. -/
def jsSlice (l : List Job) (start stop : Int) : List Job :=
  let len : Int := l.length
  let s := if start < 0 then max (len + start) 0 else min start len
  let e := if stop < 0 then max (len + stop) 0 else min stop len
  if s < e then (l.drop s.toNat).take (e - s).toNat else []

/-- The `get /jobs` response payload: one page of data plus the pagination
metadata object. -/
structure QueryResult where
  data : List Job
  page : Int
  pageSize : Int
  total : Nat
  totalPages : Int
  hasNext : Bool
  hasPrev : Bool
deriving DecidableEq, Repr

/-- Failure modes a jobs query could report.  The handler itself can only
produce `databaseError` (its catch-all 500); `invalidArgument` exists so
that the spec's claimed page/pageSize validation can be stated. -/
inductive QueryError where
  | invalidArgument : QueryError
  | databaseError : QueryError
deriving DecidableEq, Repr

/-- The `get /jobs` handler on an already-loaded jobs snapshot: sort, then
text search, then status filter, then paginate.  `page` and `pageSize` are
the `parseInt` results of the corresponding query parameters. -/
def getJobsHandler (search status sortKey ord : String) (page pageSize : Int)
    (jobs : List Job) : Except QueryError QueryResult :=
  let sorted := sortJobs sortKey ord jobs
  let filtered := statusFilter status (searchFilter search sorted)
  let total := filtered.length
  let startIndex := (page - 1) * pageSize
  Except.ok
    { data := jsSlice filtered startIndex (startIndex + pageSize)
      page := page
      pageSize := pageSize
      total := total
      totalPages := jsCeilDiv total pageSize
      hasNext := decide (startIndex + pageSize < (total : Int))
      hasPrev := decide (1 < page) }

/-- `simulateWriteOperation` latency draw, `Math.random() * 1000 + 200`
milliseconds, with the random draw modelled as a rational in `[0, 1)`. -/
def latencyOf (r : ℚ) : ℚ := r * 1000 + 200

/-- `simulateWriteOperation` per-call failure probability draw,
`Math.random() * 0.05 + 0.05`. -/
def errorRateOf (r : ℚ) : ℚ := r * (5 / 100) + 5 / 100

/-- The failure decision: a fresh draw is compared against the freshly
drawn per-call failure probability (`Math.random() < errorRate`). -/
def channelFails (rRate rDraw : ℚ) : Bool := decide (rDraw < errorRateOf rRate)

/-- The new `order` the reorder handler computes for each job in the
collection — the body of the `for (const job of jobs)` loop of
`post /jobs/:id/reorder`. -/
def computeNewOrder (jobId : String) (fromOrder toOrder : Int) (job : Job) : Int :=
  if job.id == jobId then toOrder
  else if fromOrder < toOrder then
    if fromOrder < job.order ∧ job.order ≤ toOrder then job.order - 1 else job.order
  else
    if toOrder ≤ job.order ∧ job.order < fromOrder then job.order + 1 else job.order

/-- One iteration of the update-collection loop: a job whose order changes
is emitted with the new order and a fresh `updatedAt`
(`if (newOrder !== job.order) updates.push({...job, order: newOrder, updatedAt: new Date()})`);
an unchanged job emits nothing. -/
def reorderUpdate (jobId : String) (fromOrder toOrder : Int) (now : Nat) (job : Job) :
    Option Job :=
  let newOrder := computeNewOrder jobId fromOrder toOrder job
  if newOrder ≠ job.order then some { job with order := newOrder, updatedAt := now }
  else none

/-- IndexedDB `put`: replace the record carrying the same primary key, or
append the record if the key is new. -/
def putRecord (table : List Job) (r : Job) : List Job :=
  if table.any (fun j => j.id == r.id) then
    table.map (fun j => if j.id == r.id then r else j)
  else table ++ [r]

/-- IndexedDB `bulkPut`: `put` each record in turn. -/
def bulkPut (table : List Job) (rs : List Job) : List Job :=
  rs.foldl putRecord table

/-- Outcome of a reorder call as the client sees it. -/
inductive ReorderResult where
  | ok : ReorderResult
  | notFound : ReorderResult
  | serverError : ReorderResult
deriving DecidableEq, Repr

/-- The `post /jobs/:id/reorder` handler.  `fail` is the outcome of the
simulated-failure draw inside `simulateWriteOperation`, which runs before
any table access; `now` is the wall-clock date used for `updatedAt`.
Returns the persistent jobs table, the in-memory cache (`dataCache` jobs,
`none` while the cache is cold — on success the code re-reads the table
into a warm cache), and the HTTP-level outcome. -/
def reorderHandler (fail : Bool) (jobId : String) (fromOrder toOrder : Int) (now : Nat)
    (table : List Job) (cache : Option (List Job)) :
    List Job × Option (List Job) × ReorderResult :=
  if fail then (table, cache, .serverError)
  else
    match table.find? (fun j => j.id == jobId) with
    | none => (table, cache, .notFound)
    | some _ =>
      let updates := table.filterMap (reorderUpdate jobId fromOrder toOrder now)
      let newTable := bulkPut table updates
      (newTable, cache.map (fun _ => newTable), .ok)

/-- dnd-kit `arrayMove`: remove the element at index `i` and reinsert it at
index `j`. -/
def arrayMove (l : List Job) (i j : Nat) : List Job :=
  match l[i]? with
  | none => l
  | some x => (l.eraseIdx i).insertIdx j x

/-- The state the jobs-board reorder flow can touch: the component's local
`jobs` array plus the server-side table and cache. -/
structure SysState where
  localJobs : List Job
  table : List Job
  cache : Option (List Job)
deriving DecidableEq, Repr

/-- The drag handler `handleDragEnd`: locate the dragged and drop-target
jobs, optimistically `arrayMove` the local view, issue the reorder with the
two jobs' current orders, and on a failed result restore the pre-call
`jobs` snapshot (`setJobs(jobs)`). -/
def handleDragEnd (fail : Bool) (activeId overId : String) (now : Nat)
    (st : SysState) : SysState :=
  if activeId == overId then st
  else
    match st.localJobs.findIdx? (fun j => j.id == activeId),
          st.localJobs.findIdx? (fun j => j.id == overId) with
    | some oldIndex, some newIndex =>
      match st.localJobs[oldIndex]?, st.localJobs[newIndex]? with
      | some oldJob, some newJob =>
        let optimistic := arrayMove st.localJobs oldIndex newIndex
        let r := reorderHandler fail activeId oldJob.order newJob.order now st.table st.cache
        match r.2.2 with
        | .ok => { localJobs := optimistic, table := r.1, cache := r.2.1 }
        | _ => { localJobs := st.localJobs, table := r.1, cache := r.2.1 }
      | _, _ => st
    | _, _ => st

/-- The Dense Rank invariant: the multiset of `order` values over the whole
collection is exactly `{1, ..., N}` for `N` the collection size. -/
def denseRank (table : List Job) : Prop :=
  (↑(table.map Job.order) : Multiset Int) = (Finset.Icc 1 (table.length : Int)).val

/-- The transition the shift algorithm induces on rank values once the
moved item is identified by its rank (on a dense collection the moved item
is the unique holder of `fromOrder`). -/
def shiftFun (fromOrder toOrder : Int) (r : Int) : Int :=
  if r = fromOrder then toOrder
  else if fromOrder < toOrder then
    if fromOrder < r ∧ r ≤ toOrder then r - 1 else r
  else
    if toOrder ≤ r ∧ r < fromOrder then r + 1 else r

/-- The per-item rank transition exactly as the specification words it:
moved item to `rankTo`; other items in the vacated span shift by one toward
the vacated slot; all other items keep their rank. -/
def specNewOrder (jobId : String) (fromOrder toOrder : Int) (j : Job) : Int :=
  if j.id = jobId then toOrder
  else if fromOrder < toOrder ∧ fromOrder < j.order ∧ j.order ≤ toOrder then j.order - 1
  else if toOrder < fromOrder ∧ toOrder ≤ j.order ∧ j.order < fromOrder then j.order + 1
  else j.order

/-- A two-job collection used as concrete input. -/
def jobsAB : List Job :=
  [{ id := "a", title := "Alpha Engineer", status := "active", tags := ["react"],
     order := 1, createdAt := 100, updatedAt := 100 },
   { id := "b", title := "Beta Designer", status := "archived", tags := ["figma"],
     order := 2, createdAt := 50, updatedAt := 50 }]

/-- A dense five-job collection ranked 1..5, used for the concrete reorder
scenario. -/
def jobs5 : List Job :=
  [{ id := "a", title := "Job A", status := "active", tags := [], order := 1,
     createdAt := 10, updatedAt := 10 },
   { id := "b", title := "Job B", status := "active", tags := [], order := 2,
     createdAt := 20, updatedAt := 20 },
   { id := "c", title := "Job C", status := "active", tags := [], order := 3,
     createdAt := 30, updatedAt := 30 },
   { id := "d", title := "Job D", status := "active", tags := [], order := 4,
     createdAt := 40, updatedAt := 40 },
   { id := "e", title := "Job E", status := "active", tags := [], order := 5,
     createdAt := 50, updatedAt := 50 }]

/-! ### Helper lemmas about `putRecord` / `bulkPut` -/

lemma id_ite_replace (u j : Job) : (if j.id == u.id then u else j).id = j.id := by
  by_cases h : j.id = u.id
  · simp [h]
  · simp [h]

lemma map_id_putReplace (table : List Job) (u : Job) :
    ((table.map fun j => if j.id == u.id then u else j).map Job.id) = table.map Job.id := by
  rw [List.map_map]
  exact List.map_congr_left fun j _ => id_ite_replace u j

lemma putRecord_of_mem {table : List Job} {u : Job} (h : u.id ∈ table.map Job.id) :
    putRecord table u = table.map fun j => if j.id == u.id then u else j := by
  have hx : (table.any fun j => j.id == u.id) = true := by
    rw [List.any_eq_true]
    obtain ⟨j, hj, hid⟩ := List.mem_map.mp h
    exact ⟨j, hj, beq_iff_eq.mpr hid⟩
  unfold putRecord
  rw [if_pos hx]

lemma bulkPut_eq_map :
    ∀ (updates table : List Job),
      (∀ u ∈ updates, u.id ∈ table.map Job.id) →
      (updates.map Job.id).Nodup →
      bulkPut table updates
        = table.map fun j => ((updates.find? fun u => u.id == j.id).getD j) := by
  intro updates
  induction updates with
  | nil => intro table _ _; simp [bulkPut]
  | cons u us ih =>
    intro table hsub hnd
    have hu : u.id ∈ table.map Job.id := hsub u (List.mem_cons_self u us)
    have hstep : bulkPut table (u :: us) = bulkPut (putRecord table u) us := by
      simp [bulkPut]
    rw [hstep, putRecord_of_mem hu]
    simp only [List.map_cons] at hnd
    have hnd2 := List.nodup_cons.mp hnd
    have hsub2 : ∀ v ∈ us, v.id ∈ (table.map fun j => if j.id == u.id then u else j).map Job.id := by
      intro v hv
      rw [map_id_putReplace]
      exact hsub v (List.mem_cons_of_mem u hv)
    rw [ih _ hsub2 hnd2.2]
    rw [List.map_map]
    apply List.map_congr_left
    intro j _
    show ((us.find? fun v => v.id == (if j.id == u.id then u else j).id).getD
        (if j.id == u.id then u else j))
      = (((u :: us).find? fun v => v.id == j.id).getD j)
    rw [id_ite_replace u j]
    by_cases h : j.id = u.id
    · have hgj : (if j.id == u.id then u else j) = u := by simp [h]
      rw [hgj]
      have hnone : (us.find? fun v => v.id == j.id) = none := by
        apply List.find?_eq_none.mpr
        intro v hv hpv
        exact hnd2.1 (h ▸ beq_iff_eq.mp hpv ▸ List.mem_map_of_mem Job.id hv)
      have hhead : ((u :: us).find? fun v => v.id == j.id) = some u :=
        List.find?_cons_of_pos _ (beq_iff_eq.mpr (h.symm))
      rw [hnone, hhead]
      rfl
    · have hgj : (if j.id == u.id then u else j) = j := by simp [h]
      rw [hgj]
      have hhead : ((u :: us).find? fun v => v.id == j.id) = us.find? fun v => v.id == j.id :=
        List.find?_cons_of_neg _ (by simp; exact fun hc => h hc.symm)
      rw [hhead]

/-! ### Characterizing the reorder handler's successful path -/

lemma reorderUpdate_id {jobId : String} {fromOrder toOrder : Int} {now : Nat} {job u : Job}
    (h : reorderUpdate jobId fromOrder toOrder now job = some u) : u.id = job.id := by
  simp only [reorderUpdate] at h
  split at h
  · have h2 := Option.some.inj h
    subst h2
    rfl
  · cases h

lemma ids_filterMap_sublist (f : Job → Option Job) (hf : ∀ j u, f j = some u → u.id = j.id) :
    ∀ table : List Job, ((table.filterMap f).map Job.id).Sublist (table.map Job.id) := by
  intro table
  induction table with
  | nil => simp
  | cons j js ih =>
    cases hfj : f j with
    | none =>
      simp only [List.filterMap_cons, hfj, List.map_cons]
      exact ih.cons _
    | some u =>
      simp only [List.filterMap_cons, hfj, List.map_cons]
      rw [hf j u hfj]
      exact ih.cons₂ _

lemma find?_eq_some_of_unique {p : Job → Bool} {l : List Job} {a : Job}
    (ha : a ∈ l) (hpa : p a = true) (huniq : ∀ b ∈ l, p b = true → b = a) :
    l.find? p = some a := by
  induction l with
  | nil => cases ha
  | cons c cs ih =>
    by_cases hc : p c = true
    · rw [List.find?_cons_of_pos _ hc]
      exact congrArg some (huniq c (List.mem_cons_self c cs) hc)
    · rw [List.find?_cons_of_neg _ (by simpa using hc)]
      rcases List.mem_cons.mp ha with rfl | ha2
      · exact absurd hpa hc
      · exact ih ha2 fun b hb hpb => huniq b (List.mem_cons_of_mem c hb) hpb

lemma find?_reorderUpdates {table : List Job} (hnodup : (table.map Job.id).Nodup)
    (jobId : String) (fromOrder toOrder : Int) (now : Nat) {j : Job} (hj : j ∈ table) :
    ((table.filterMap (reorderUpdate jobId fromOrder toOrder now)).find?
        fun u => u.id == j.id)
      = reorderUpdate jobId fromOrder toOrder now j := by
  have hinj := List.inj_on_of_nodup_map hnodup
  cases hju : reorderUpdate jobId fromOrder toOrder now j with
  | some u =>
    apply find?_eq_some_of_unique
    · exact List.mem_filterMap.mpr ⟨j, hj, hju⟩
    · exact beq_iff_eq.mpr (reorderUpdate_id hju)
    · intro v hv hpv
      obtain ⟨j2, hj2, hj2v⟩ := List.mem_filterMap.mp hv
      have hvid : v.id = j2.id := reorderUpdate_id hj2v
      have hjj : j2 = j := hinj hj2 hj (by rw [← hvid]; exact beq_iff_eq.mp hpv)
      subst hjj
      rw [hju] at hj2v
      exact (Option.some.inj hj2v).symm
  | none =>
    apply List.find?_eq_none.mpr
    intro v hv hpv
    obtain ⟨j2, hj2, hj2v⟩ := List.mem_filterMap.mp hv
    have hvid : v.id = j2.id := reorderUpdate_id hj2v
    have hjj : j2 = j := hinj hj2 hj (by rw [← hvid]; exact beq_iff_eq.mp hpv)
    subst hjj
    rw [hju] at hj2v
    cases hj2v

lemma reorderHandler_found {table : List Job} (cache : Option (List Job))
    {jobId : String} (fromOrder toOrder : Int) (now : Nat)
    (hnodup : (table.map Job.id).Nodup)
    (hfound : ∃ j ∈ table, j.id = jobId) :
    reorderHandler false jobId fromOrder toOrder now table cache
      = (table.map fun j => ((reorderUpdate jobId fromOrder toOrder now j).getD j),
         cache.map fun _ =>
           table.map fun j => ((reorderUpdate jobId fromOrder toOrder now j).getD j),
         .ok) := by
  obtain ⟨j0, hj0, hid0⟩ := hfound
  have hf : (table.find? fun j => j.id == jobId).isSome := by
    rw [List.find?_isSome]
    exact ⟨j0, hj0, beq_iff_eq.mpr hid0⟩
  obtain ⟨jf, hjf⟩ := Option.isSome_iff_exists.mp hf
  have hsub : ∀ u ∈ table.filterMap (reorderUpdate jobId fromOrder toOrder now),
      u.id ∈ table.map Job.id := by
    intro u hu
    obtain ⟨j, hj, hju⟩ := List.mem_filterMap.mp hu
    rw [reorderUpdate_id hju]
    exact List.mem_map_of_mem Job.id hj
  have hnd2 : ((table.filterMap (reorderUpdate jobId fromOrder toOrder now)).map Job.id).Nodup :=
    (ids_filterMap_sublist _ (fun j u h => reorderUpdate_id h) table).nodup hnodup
  have hpt : bulkPut table (table.filterMap (reorderUpdate jobId fromOrder toOrder now))
      = table.map fun j => ((reorderUpdate jobId fromOrder toOrder now j).getD j) := by
    rw [bulkPut_eq_map _ _ hsub hnd2]
    apply List.map_congr_left
    intro j hj
    rw [find?_reorderUpdates hnodup jobId fromOrder toOrder now hj]
  unfold reorderHandler
  rw [if_neg (by simp)]
  rw [hjf]
  dsimp only
  rw [hpt]

lemma getD_reorderUpdate_id (jobId : String) (fromOrder toOrder : Int) (now : Nat) (j : Job) :
    ((reorderUpdate jobId fromOrder toOrder now j).getD j).id = j.id := by
  cases h : reorderUpdate jobId fromOrder toOrder now j with
  | none => rfl
  | some u => simpa using reorderUpdate_id h

lemma getD_reorderUpdate_order (jobId : String) (fromOrder toOrder : Int) (now : Nat) (j : Job) :
    ((reorderUpdate jobId fromOrder toOrder now j).getD j).order
      = computeNewOrder jobId fromOrder toOrder j := by
  simp only [reorderUpdate]
  split
  · rfl
  · next h => simpa using (not_ne_iff.mp h).symm

lemma reorderUpdate_eq_none {jobId : String} {fromOrder toOrder : Int} {now : Nat} {j : Job}
    (h : computeNewOrder jobId fromOrder toOrder j = j.order) :
    reorderUpdate jobId fromOrder toOrder now j = none := by
  simp only [reorderUpdate]
  rw [if_neg (not_ne_iff.mpr h)]

/-! ### The rank transition as a bijection of `{1, ..., N}` -/

lemma computeNewOrder_eq_shiftFun {table : List Job} {jobId : String}
    {fromOrder toOrder : Int}
    (hids : (table.map Job.id).Nodup)
    (hordnodup : (table.map Job.order).Nodup)
    {j0 : Job} (hj0 : j0 ∈ table) (hi0 : j0.id = jobId) (hord : j0.order = fromOrder)
    {j : Job} (hj : j ∈ table) :
    computeNewOrder jobId fromOrder toOrder j = shiftFun fromOrder toOrder j.order := by
  have hinj := List.inj_on_of_nodup_map hids
  have hinjo := List.inj_on_of_nodup_map hordnodup
  by_cases h : j.id = jobId
  · have hjj0 : j = j0 := hinj hj hj0 (by rw [h, hi0])
    have hjo : j.order = fromOrder := by rw [hjj0]; exact hord
    unfold computeNewOrder shiftFun
    rw [if_pos (beq_iff_eq.mpr h), if_pos hjo]
  · have hordne : ¬ j.order = fromOrder := by
      intro he
      apply h
      have hjj0 : j = j0 := hinjo hj hj0 (by rw [he, hord])
      rw [hjj0, hi0]
    unfold computeNewOrder shiftFun
    rw [if_neg (by simpa using h), if_neg hordne]

lemma shiftFun_maps_Icc {fromOrder toOrder N : Int}
    (hfrom1 : 1 ≤ fromOrder) (hfrom2 : fromOrder ≤ N)
    (hto1 : 1 ≤ toOrder) (hto2 : toOrder ≤ N) :
    ∀ r ∈ Finset.Icc (1 : Int) N, shiftFun fromOrder toOrder r ∈ Finset.Icc (1 : Int) N := by
  intro r hr
  rw [Finset.mem_Icc] at hr ⊢
  unfold shiftFun
  split_ifs <;> omega

lemma shiftFun_injOn {fromOrder toOrder N : Int} :
    Set.InjOn (shiftFun fromOrder toOrder) ↑(Finset.Icc (1 : Int) N) := by
  intro a _ b _ hab
  unfold shiftFun at hab
  split_ifs at hab <;> omega

lemma map_shiftFun_Icc {fromOrder toOrder N : Int}
    (hfrom1 : 1 ≤ fromOrder) (hfrom2 : fromOrder ≤ N)
    (hto1 : 1 ≤ toOrder) (hto2 : toOrder ≤ N) :
    Multiset.map (shiftFun fromOrder toOrder) (Finset.Icc (1 : Int) N).val
      = (Finset.Icc (1 : Int) N).val := by
  have hinj : Set.InjOn (shiftFun fromOrder toOrder) ↑(Finset.Icc (1 : Int) N) :=
    shiftFun_injOn
  have himg : Finset.image (shiftFun fromOrder toOrder) (Finset.Icc (1 : Int) N)
      = Finset.Icc (1 : Int) N := by
    apply Finset.eq_of_subset_of_card_le
    · intro x hx
      obtain ⟨r, hr, rfl⟩ := Finset.mem_image.mp hx
      exact shiftFun_maps_Icc hfrom1 hfrom2 hto1 hto2 r hr
    · rw [Finset.card_image_of_injOn hinj]
  rw [← Finset.image_val_of_injOn hinj, himg]

/-- C1: on a collection whose order values are exactly `{1,...,N}`, a
successful reorder of the job holding rank `rankFrom` to any rank `rankTo`
in `[1, N]` with `rankFrom ≠ rankTo` leaves the order multiset of the full
collection exactly `{1,...,N}` again — no gaps, no duplicates. -/
theorem reorder_preserves_denseRank
    (table : List Job) (cache : Option (List Job)) (jobId : String)
    (fromOrder toOrder : Int) (now : Nat)
    (hids : (table.map Job.id).Nodup)
    (hdense : denseRank table)
    (hmoved : ∃ j ∈ table, j.id = jobId ∧ j.order = fromOrder)
    (_hne : fromOrder ≠ toOrder)
    (hto1 : 1 ≤ toOrder) (hto2 : toOrder ≤ (table.length : Int)) :
    denseRank (reorderHandler false jobId fromOrder toOrder now table cache).1 ∧
      (reorderHandler false jobId fromOrder toOrder now table cache).2.2 = .ok := by
  obtain ⟨j0, hj0, hi0, hord⟩ := hmoved
  unfold denseRank at hdense
  have hordnodup : (table.map Job.order).Nodup := by
    rw [← Multiset.coe_nodup, hdense]
    exact (Finset.Icc 1 (table.length : Int)).nodup
  have hfmem : fromOrder ∈ Finset.Icc (1 : Int) (table.length : Int) := by
    rw [← Finset.mem_val, ← hdense, Multiset.mem_coe, ← hord]
    exact List.mem_map_of_mem Job.order hj0
  obtain ⟨hfrom1, hfrom2⟩ := Finset.mem_Icc.mp hfmem
  rw [reorderHandler_found cache fromOrder toOrder now hids ⟨j0, hj0, hi0⟩]
  refine ⟨?_, rfl⟩
  show denseRank (table.map fun j => ((reorderUpdate jobId fromOrder toOrder now j).getD j))
  unfold denseRank
  rw [List.length_map, List.map_map]
  have hmapeq : table.map
        (Job.order ∘ fun j => ((reorderUpdate jobId fromOrder toOrder now j).getD j))
      = (table.map Job.order).map (shiftFun fromOrder toOrder) := by
    rw [List.map_map]
    apply List.map_congr_left
    intro j hj
    show ((reorderUpdate jobId fromOrder toOrder now j).getD j).order = _
    rw [getD_reorderUpdate_order]
    exact computeNewOrder_eq_shiftFun hids hordnodup hj0 hi0 hord hj
  rw [hmapeq, ← Multiset.map_coe, hdense]
  exact map_shiftFun_Icc hfrom1 hfrom2 hto1 hto2

theorem reorder_preserves_denseRank_witness :
    denseRank (reorderHandler false "b" 2 5 11 jobs5 none).1 ∧
      (reorderHandler false "b" 2 5 11 jobs5 none).2.2 = .ok :=
  reorder_preserves_denseRank jobs5 none "b" 2 5 11 (by decide)
    (by unfold denseRank; decide) (by decide) (by decide) (by decide) (by decide)

lemma computeNewOrder_eq_spec (jobId : String) (fromOrder toOrder : Int) (j : Job) :
    computeNewOrder jobId fromOrder toOrder j = specNewOrder jobId fromOrder toOrder j := by
  unfold computeNewOrder specNewOrder
  by_cases h : j.id = jobId
  · simp [h]
  · rw [if_neg (by simpa using h), if_neg h]
    split_ifs <;> omega

/-- C2: after a successful reorder, every other job whose order lay in the
half-open span vacated by the move is shifted by one toward the vacated
slot, the moved job gets `rankTo`, and every job outside the span is left
entirely unchanged — exactly the per-item transition the spec states
(`specNewOrder`). -/
theorem reorder_shift_matches_spec
    (table : List Job) (cache : Option (List Job)) (jobId : String)
    (fromOrder toOrder : Int) (now : Nat)
    (hids : (table.map Job.id).Nodup)
    (hfound : ∃ j ∈ table, j.id = jobId) :
    ∀ j ∈ table, ∃ jNew,
      jNew ∈ (reorderHandler false jobId fromOrder toOrder now table cache).1 ∧
      jNew.id = j.id ∧
      jNew.order = specNewOrder jobId fromOrder toOrder j ∧
      (specNewOrder jobId fromOrder toOrder j = j.order → jNew = j) := by
  intro j hj
  rw [reorderHandler_found cache fromOrder toOrder now hids hfound]
  refine ⟨(reorderUpdate jobId fromOrder toOrder now j).getD j, ?_, ?_, ?_, ?_⟩
  · exact List.mem_map_of_mem _ hj
  · exact getD_reorderUpdate_id jobId fromOrder toOrder now j
  · rw [getD_reorderUpdate_order]
    exact computeNewOrder_eq_spec jobId fromOrder toOrder j
  · intro hsame
    rw [reorderUpdate_eq_none (by rw [computeNewOrder_eq_spec]; exact hsame)]
    rfl

theorem reorder_shift_matches_spec_witness :
    (∀ j ∈ jobs5, ∃ jNew,
      jNew ∈ (reorderHandler false "a" 1 4 9 jobs5 none).1 ∧
      jNew.id = j.id ∧
      jNew.order = specNewOrder "a" 1 4 j ∧
      (specNewOrder "a" 1 4 j = j.order → jNew = j)) ∧
    (reorderHandler false "a" 1 4 9 jobs5 none).1.map Job.order = [4, 1, 2, 3, 5] :=
  ⟨reorder_shift_matches_spec jobs5 none "a" 1 4 9 (by decide) (by decide), by decide⟩

/-- C3: when the unreliable channel injects a simulated failure, the
reorder handler mutates nothing — table and cache come back untouched with
the error surfaced — and the drag-end caller's post-call state equals its
pre-call state (the optimistic local view is rolled back to the snapshot). -/
theorem simulated_failure_no_mutation (jobId activeId overId : String)
    (fromOrder toOrder : Int) (now : Nat) (table : List Job)
    (cache : Option (List Job)) (st : SysState) :
    reorderHandler true jobId fromOrder toOrder now table cache
        = (table, cache, .serverError) ∧
      handleDragEnd true activeId overId now st = st := by
  refine ⟨rfl, ?_⟩
  unfold handleDragEnd
  by_cases h1 : (activeId == overId) = true
  · rw [if_pos h1]
  · rw [if_neg h1]
    cases hf1 : st.localJobs.findIdx? (fun j => j.id == activeId) with
    | none => rfl
    | some oldIndex =>
      cases hf2 : st.localJobs.findIdx? (fun j => j.id == overId) with
      | none => rfl
      | some newIndex =>
        dsimp only
        cases hg1 : st.localJobs[oldIndex]? with
        | none => rfl
        | some oldJob =>
          cases hg2 : st.localJobs[newIndex]? with
          | none => rfl
          | some newJob => rfl

/-- C5 counterexample: with two jobs ranked `{1, 2}`, a reorder asking for
`rankTo = 5` — far outside `[1, N] = [1, 2]` — is not rejected: the call
reports success and the table is mutated to orders `[5, 1]`. -/
theorem reorder_out_of_range_not_rejected :
    (reorderHandler false "a" 1 5 3 jobsAB none).2.2 = .ok ∧
      (reorderHandler false "a" 1 5 3 jobsAB none).1.map Job.order = [5, 1] ∧
      ¬ ((5 : Int) ≤ (jobsAB.length : Int)) := by decide

/-- C5 amended: the only precondition the reorder handler enforces is that
the item id exists — an unknown id fails (404, before any mutation, table
and cache untouched); `rankFrom`/`rankTo` are never range-checked. -/
theorem reorder_nonexistent_id_rejected
    (table : List Job) (cache : Option (List Job)) (jobId : String)
    (fromOrder toOrder : Int) (now : Nat)
    (habsent : ∀ j ∈ table, j.id ≠ jobId) :
    reorderHandler false jobId fromOrder toOrder now table cache
      = (table, cache, .notFound) := by
  have hnone : (table.find? fun j => j.id == jobId) = none :=
    List.find?_eq_none.mpr fun j hj => by simpa using habsent j hj
  unfold reorderHandler
  rw [if_neg (by simp), hnone]

theorem reorder_nonexistent_id_rejected_witness :
    reorderHandler false "zzz" 1 2 5 jobsAB none = (jobsAB, none, .notFound) :=
  reorder_nonexistent_id_rejected jobsAB none "zzz" 1 2 5 (by decide)

/-- C7: a reorder with `rankFrom = rankTo = r` of the item actually holding
rank `r` changes nothing at all: the handler succeeds and table and cache
come back exactly as they were (no order, timestamp, or other field moves). -/
theorem reorder_same_rank_noop
    (table : List Job) (cache : Option (List Job)) (jobId : String) (r : Int) (now : Nat)
    (hids : (table.map Job.id).Nodup)
    (hmem : ∃ j ∈ table, j.id = jobId ∧ j.order = r)
    (hcache : cache = none ∨ cache = some table) :
    reorderHandler false jobId r r now table cache = (table, cache, .ok) := by
  obtain ⟨j0, hj0, hi0, hord⟩ := hmem
  have hinj := List.inj_on_of_nodup_map hids
  have hnone : ∀ j ∈ table, reorderUpdate jobId r r now j = none := by
    intro j hj
    apply reorderUpdate_eq_none
    by_cases h : j.id = jobId
    · have hjj0 : j = j0 := hinj hj hj0 (by rw [h, hi0])
      have hjo : j.order = r := by rw [hjj0]; exact hord
      unfold computeNewOrder
      rw [if_pos (beq_iff_eq.mpr h)]
      exact hjo.symm
    · unfold computeNewOrder
      rw [if_neg (by simpa using h)]
      split_ifs <;> omega
  rw [reorderHandler_found cache r r now hids ⟨j0, hj0, hi0⟩]
  have hmap : (table.map fun j => ((reorderUpdate jobId r r now j).getD j)) = table := by
    calc table.map (fun j => ((reorderUpdate jobId r r now j).getD j))
        = table.map id := List.map_congr_left (fun j hj => by rw [hnone j hj]; rfl)
      _ = table := List.map_id table
  rw [hmap]
  rcases hcache with rfl | rfl
  · rfl
  · rfl

theorem reorder_same_rank_noop_witness :
    reorderHandler false "c" 3 3 13 jobs5 (some jobs5) = (jobs5, some jobs5, .ok) :=
  reorder_same_rank_noop jobs5 (some jobs5) "c" 3 13 (by decide) (by decide) (Or.inr rfl)

/-! ### Pagination arithmetic -/

lemma jsCeilDiv_bounds (a b : Int) (hb : 0 < b) :
    b * (jsCeilDiv a b - 1) < a ∧ a ≤ b * jsCeilDiv a b := by
  unfold jsCeilDiv
  rw [if_pos hb]
  have h1 := Int.ediv_add_emod (a + b - 1) b
  have h2 := Int.emod_nonneg (a + b - 1) (by omega : b ≠ 0)
  have h3 := Int.emod_lt_of_pos (a + b - 1) hb
  have hq : b * ((a + b - 1) / b - 1) = b * ((a + b - 1) / b) - b := by ring
  constructor
  · rw [hq]
    linarith
  · linarith

lemma jsCeilDiv_eq_zero_iff (a b : Int) (hb : 0 < b) (ha : 0 ≤ a) :
    jsCeilDiv a b = 0 ↔ a = 0 := by
  have hbd := jsCeilDiv_bounds a b hb
  constructor
  · intro h
    rw [h] at hbd
    simp at hbd
    omega
  · intro h
    subst h
    unfold jsCeilDiv
    rw [if_pos hb]
    have hb1 : (0 : Int) + b - 1 = b - 1 := by ring
    rw [hb1]
    exact Int.ediv_eq_zero_of_lt (by omega) (by omega)

lemma jsSlice_of_nonneg (l : List Job) (start stop : Int)
    (h0 : 0 ≤ start) (hss : start ≤ stop) :
    jsSlice l start stop = (l.drop start.toNat).take (stop - start).toNat := by
  simp only [jsSlice]
  rw [if_neg (by omega : ¬ start < 0), if_neg (by omega : ¬ stop < 0)]
  by_cases hA : (l.length : Int) ≤ start
  · have hs1 : min start (l.length : Int) = (l.length : Int) := min_eq_right hA
    have he1 : min stop (l.length : Int) = (l.length : Int) := min_eq_right (by omega)
    rw [hs1, he1, if_neg (by omega)]
    rw [List.drop_eq_nil_of_le (by omega : l.length ≤ start.toNat)]
    simp
  · push_neg at hA
    have hs1 : min start (l.length : Int) = start := min_eq_left (by omega)
    by_cases hB : (l.length : Int) ≤ stop
    · have he1 : min stop (l.length : Int) = (l.length : Int) := min_eq_right hB
      rw [hs1, he1, if_pos (by omega)]
      rw [List.take_of_length_le (by rw [List.length_drop]; omega),
        List.take_of_length_le (by rw [List.length_drop]; omega)]
    · push_neg at hB
      have he1 : min stop (l.length : Int) = stop := min_eq_left (by omega)
      rw [hs1, he1]
      by_cases hC : start < stop
      · rw [if_pos hC]
      · rw [if_neg hC]
        have hse : stop = start := le_antisymm (not_lt.mp hC) hss
        rw [hse]
        simp

/-- C4: for `page ≥ 1` and `pageSize ≥ 1` the query returns (never errors)
with: `total` the filtered count before pagination; `totalPages` the exact
ceiling of `total / pageSize` (characterized by its two bounds, and zero
exactly when `total` is zero); `hasNext` iff `page * pageSize < total` (so
false on the last page); `hasPrev` iff `page > 1`; `items` the clamped
slice `[(page-1)*pageSize, page*pageSize)`; and a page beyond `totalPages`
yields an empty `items` list, not an error. -/
theorem pagination_laws (search status sortKey ord : String) (page pageSize : Int)
    (jobs : List Job) (hp : 1 ≤ page) (hs : 1 ≤ pageSize) :
    ∃ r, getJobsHandler search status sortKey ord page pageSize jobs = Except.ok r ∧
      r.total = (statusFilter status (searchFilter search (sortJobs sortKey ord jobs))).length ∧
      pageSize * (r.totalPages - 1) < (r.total : Int) ∧
      (r.total : Int) ≤ pageSize * r.totalPages ∧
      (r.totalPages = 0 ↔ r.total = 0) ∧
      (r.hasNext = true ↔ page * pageSize < (r.total : Int)) ∧
      (page = r.totalPages → r.hasNext = false) ∧
      (r.hasPrev = true ↔ 1 < page) ∧
      r.data = ((statusFilter status (searchFilter search (sortJobs sortKey ord jobs))).drop
          ((page - 1) * pageSize).toNat).take pageSize.toNat ∧
      (r.totalPages < page → r.data = []) := by
  have hb : (0 : Int) < pageSize := by omega
  have hring : (page - 1) * pageSize + pageSize = page * pageSize := by ring
  refine ⟨_, rfl, rfl, ?_, ?_, ?_, ?_, ?_, ?_, ?_, ?_⟩
  · exact (jsCeilDiv_bounds _ _ hb).1
  · exact (jsCeilDiv_bounds _ _ hb).2
  · rw [jsCeilDiv_eq_zero_iff _ _ hb (Int.natCast_nonneg _)]
    exact Int.natCast_eq_zero
  · rw [decide_eq_true_iff, hring]
  · intro hpage
    dsimp only at hpage
    rw [decide_eq_false_iff_not, hring]
    have hbd := (jsCeilDiv_bounds
      ((statusFilter status (searchFilter search (sortJobs sortKey ord jobs))).length : Int)
      pageSize hb).2
    rw [← hpage] at hbd
    have hcomm : pageSize * page = page * pageSize := by ring
    rw [hcomm] at hbd
    exact not_lt.mpr hbd
  · exact decide_eq_true_iff
  · rw [jsSlice_of_nonneg _ _ _ (mul_nonneg (by omega) (by omega)) (by linarith)]
    have hsub : (page - 1) * pageSize + pageSize - (page - 1) * pageSize = pageSize := by ring
    rw [hsub]
  · intro hbeyond
    dsimp only at hbeyond
    rw [jsSlice_of_nonneg _ _ _ (mul_nonneg (by omega) (by omega)) (by linarith)]
    have hbd := (jsCeilDiv_bounds
      ((statusFilter status (searchFilter search (sortJobs sortKey ord jobs))).length : Int)
      pageSize hb).2
    have hmono : pageSize * jsCeilDiv
        ((statusFilter status (searchFilter search (sortJobs sortKey ord jobs))).length : Int)
        pageSize ≤ pageSize * (page - 1) :=
      mul_le_mul_of_nonneg_left (by omega) (by omega)
    have htot : ((statusFilter status (searchFilter search (sortJobs sortKey ord jobs))).length : Int)
        ≤ (page - 1) * pageSize := by
      have hcomm : pageSize * (page - 1) = (page - 1) * pageSize := by ring
      rw [hcomm] at hmono
      linarith
    rw [List.drop_eq_nil_of_le]
    · simp
    · generalize hA : (page - 1) * pageSize = A at htot ⊢
      omega

theorem pagination_laws_witness :
    ∃ r, getJobsHandler "" "" "order" "asc" 1 2 jobsAB = Except.ok r ∧
      r.total = (statusFilter "" (searchFilter "" (sortJobs "order" "asc" jobsAB))).length ∧
      (2 : Int) * (r.totalPages - 1) < (r.total : Int) ∧
      (r.total : Int) ≤ 2 * r.totalPages ∧
      (r.totalPages = 0 ↔ r.total = 0) ∧
      (r.hasNext = true ↔ (1 : Int) * 2 < (r.total : Int)) ∧
      ((1 : Int) = r.totalPages → r.hasNext = false) ∧
      (r.hasPrev = true ↔ (1 : Int) < 1) ∧
      r.data = ((statusFilter "" (searchFilter "" (sortJobs "order" "asc" jobsAB))).drop
          (((1 : Int) - 1) * 2).toNat).take (2 : Int).toNat ∧
      (r.totalPages < 1 → r.data = []) :=
  pagination_laws "" "" "order" "asc" 1 2 jobsAB (by decide) (by decide)

/-- C6 counterexample: a query with `page = 0` — violating `page ≥ 1` — is
not rejected with `InvalidArgument`: the handler returns a normal result
object (with an empty slice, computed by JS `Array.slice` semantics). -/
theorem page_zero_returns_result :
    getJobsHandler "" "" "order" "asc" 0 12 jobsAB
      = Except.ok
          { data := [], page := 0, pageSize := 12, total := 2, totalPages := 1,
            hasNext := true, hasPrev := false } := by
  rfl

/-- C6 amended: the jobs query performs no page/pageSize validation at all —
for every argument combination it returns a result object (`Except.ok`),
never an `InvalidArgument` failure; non-positive pages simply flow through
the JS slice arithmetic. -/
theorem query_never_invalid_argument (search status sortKey ord : String)
    (page pageSize : Int) (jobs : List Job) :
    ∃ r, getJobsHandler search status sortKey ord page pageSize jobs = Except.ok r :=
  ⟨_, rfl⟩

/-- C8: the jobs query applies the text search and the status filter as
successive `filter` passes, so membership in the combined result is exactly
membership in each individual result — the intersection property. -/
theorem filter_search_composable (search status : String) (jobs : List Job) (j : Job) :
    j ∈ statusFilter status (searchFilter search jobs)
      ↔ j ∈ searchFilter search jobs ∧ j ∈ statusFilter status jobs := by
  unfold searchFilter statusFilter
  split_ifs <;> (try simp only [List.mem_filter]) <;> tauto

/-- C9: for every random draw `r ∈ [0, 1)` the simulated latency
`1000 r + 200` lies in `[200, 1200]` and the per-call failure probability
`0.05 r + 0.05` lies in `[0.05, 0.10]`; and the failure rate genuinely
depends on the per-call draw (it is not a fixed constant). -/
theorem channel_latency_error_bounds :
    (∀ r : ℚ, 0 ≤ r → r < 1 →
      200 ≤ latencyOf r ∧ latencyOf r ≤ 1200 ∧
      (5 / 100 : ℚ) ≤ errorRateOf r ∧ errorRateOf r ≤ 10 / 100) ∧
    errorRateOf 0 ≠ errorRateOf (1 / 2) := by
  constructor
  · intro r h0 h1
    unfold latencyOf errorRateOf
    refine ⟨by linarith, by linarith, by linarith, by linarith⟩
  · unfold errorRateOf
    norm_num

theorem channel_latency_error_bounds_witness :
    200 ≤ latencyOf (1 / 2) ∧ latencyOf (1 / 2) ≤ 1200 ∧
      (5 / 100 : ℚ) ≤ errorRateOf (1 / 2) ∧ errorRateOf (1 / 2) ≤ 10 / 100 :=
  channel_latency_error_bounds.1 (1 / 2) (by norm_num) (by norm_num)

/-- C10: for every sort key other than `"order"` the query sorts by the
`createdAt` timestamp in the requested direction — the requested field name
is ignored (e.g. `sort=title` silently sorts by creation date). -/
theorem sort_field_ignored (sortKey ord : String) (hs : sortKey ≠ "order")
    (jobs : List Job) :
    sortJobs sortKey ord jobs = sortByCreatedAt ord jobs ∧
      (sortJobs sortKey "asc" jobs).Pairwise (fun a b => a.createdAt ≤ b.createdAt) ∧
      (sortJobs sortKey "desc" jobs).Pairwise (fun a b => b.createdAt ≤ a.createdAt) := by
  have hneq : ¬ ((sortKey == "order") = true) := by simpa using hs
  refine ⟨?_, ?_, ?_⟩
  · unfold sortJobs
    rw [if_neg hneq]
  · unfold sortJobs sortByCreatedAt
    rw [if_neg hneq, if_pos (by rfl)]
    haveI : IsTotal Job (fun a b => a.createdAt ≤ b.createdAt) := ⟨fun a b => le_total _ _⟩
    haveI : IsTrans Job (fun a b => a.createdAt ≤ b.createdAt) :=
      ⟨fun _ _ _ hab hbc => le_trans hab hbc⟩
    exact List.sorted_insertionSort _ _
  · unfold sortJobs sortByCreatedAt
    rw [if_neg hneq, if_neg (by decide)]
    haveI : IsTotal Job (fun a b => b.createdAt ≤ a.createdAt) := ⟨fun a b => le_total _ _⟩
    haveI : IsTrans Job (fun a b => b.createdAt ≤ a.createdAt) :=
      ⟨fun _ _ _ hab hbc => le_trans hbc hab⟩
    exact List.sorted_insertionSort _ _

theorem sort_field_ignored_witness :
    sortJobs "title" "asc" jobsAB = sortByCreatedAt "asc" jobsAB ∧
      (sortJobs "title" "asc" jobsAB).Pairwise (fun a b => a.createdAt ≤ b.createdAt) ∧
      (sortJobs "title" "desc" jobsAB).Pairwise (fun a b => b.createdAt ≤ a.createdAt) :=
  sort_field_ignored "title" "asc" (by decide) jobsAB
